import Mathlib

/-!
Shallow embedding of the alias-registry engine of `createAliasMap.ts`
(the module behind `vite.config.ts`): the registry (`FileMapType`, a JS
object from module keys to ordered path lists), the watcher mutation
protocol (`processWatcherEvent`), the alias projection
(`createViteAliasMap`), and the persistence codec
(`writeTsConfigPathsJSON` / `tsConfigPathsToFileMap`).

Embedding conventions:
* An absolute file path is embedded as its list of components below the
  filesystem root (`FsPath`); `path.sep` is the POSIX separator.
* A JS object with string keys is embedded as an insertion-ordered
  association list: reads take the first (only) matching entry, writes to
  an existing key keep its position, writes to a fresh key append it, and
  `delete` removes it.  (The special iteration placement JS gives to
  integer-like keys is not modelled.)
* `JSON.parse` of the persisted file is external to the module; its result
  is embedded as an `Option` of the parsed `compilerOptions.paths`
  structure, `none` standing for a malformed file (a parse throw).
* Promise settlement is embedded by `Settlement`: a promise is resolved,
  rejected, or forever pending.
-/

/-- `path.sep`, fixed to the POSIX separator in this embedding. -/
def pathSep : String := "/"

/-- An absolute file path as its list of components below the root. -/
abbrev FsPath := List String

/-- `CreateAliasInputType` after the bootstrap has resolved `sourcePath` to
an absolute path.  The optional `prefix` field is named `importPrefix`
(Lean reserves the word); `extensions` and `ignored` only configure the
watcher's glob and are outside the embedded core. -/
structure CreateAliasInput where
  sourcePath : FsPath
  importPrefix : Option String
deriving DecidableEq

/-- `FileMapType = Record<string, string[]>`: the registry, a JS object
embedded as an insertion-ordered association list from module keys to
ordered lists of absolute paths. -/
abbrev FileMap := List (String × List FsPath)

/-- `fileMap[k]`: the value at key `k`, `undefined` (`none`) when absent. -/
def getKey (fm : FileMap) (k : String) : Option (List FsPath) :=
  (fm.find? (fun e => e.1 == k)).map (fun e => e.2)

/-- `fileMap[k] = v`: overwrite an existing key in place, or append a new
key at the end (JS object insertion order). -/
def setKey (fm : FileMap) (k : String) (v : List FsPath) : FileMap :=
  if fm.any (fun e => e.1 == k) then
    fm.map (fun e => if e.1 == k then (k, v) else e)
  else fm ++ [(k, v)]

/-- `delete fileMap[k]`. -/
def deleteKey (fm : FileMap) (k : String) : FileMap :=
  fm.filter (fun e => e.1 != k)

/-- Position of the last '.' in a list of characters, if any. -/
def lastDotIdx (cs : List Char) : Option Nat :=
  match cs.reverse.findIdx? (fun c => c == '.') with
  | none => none
  | some j => some (cs.length - 1 - j)

/-- `path.parse(absoluteFilePath).name` applied to the path's last
component: the file name with its extension (the part from the last dot)
stripped, except that a leading dot (a dotfile) is not an extension. -/
def parseName (base : String) : String :=
  match lastDotIdx base.toList with
  | none => base
  | some i => if i == 0 then base else String.mk (base.toList.take i)

/-- `getImportPrefix`: the `prefix` of the first alias input whose
`sourcePath` is a prefix of the file path
(`absoluteFilePath.startsWith(item.sourcePath)` on component lists),
`undefined` (`none`) when no input matches or the matching input has no
prefix (`arr.find(...)?.prefix`). -/
def getImportPrefix (p : FsPath) (arr : List CreateAliasInput) : Option String :=
  (arr.find? (fun item => item.sourcePath.isPrefixOf p)).bind
    (fun item => item.importPrefix)

/-- The ModuleKey computed by `processWatcherEvent`:
`componentPathPrefix ? prefix + path.sep + fileName : fileName`.
JS truthiness: an `undefined` or empty prefix selects the bare file
name. -/
def mapKeyOf (arr : List CreateAliasInput) (p : FsPath) : String :=
  let pre := (getImportPrefix p arr).getD ""
  let fileName := parseName (p.getLastD "")
  if pre == "" then fileName else pre ++ pathSep ++ fileName

/-- The `add` branch of `processWatcherEvent`:
`fileMap[mapKey] = [...(fileMap[mapKey] ?? []), absoluteFilePath]`. -/
def processAdd (fm : FileMap) (arr : List CreateAliasInput) (p : FsPath) :
    FileMap :=
  let k := mapKeyOf arr p
  setKey fm k (((getKey fm k).getD []) ++ [p])

/-- The `unlink` branch of `processWatcherEvent`:
`fileMap[mapKey] = fileMap[mapKey].filter(val => val !== absoluteFilePath)`
then `if (!fileMap[mapKey].length) delete fileMap[mapKey]`.
When the key is absent, `fileMap[mapKey]` is `undefined` and `.filter`
throws a `TypeError`, so the (async) handler yields no new registry:
embedded as `none`. -/
def processUnlink (fm : FileMap) (arr : List CreateAliasInput) (p : FsPath) :
    Option FileMap :=
  let k := mapKeyOf arr p
  match getKey fm k with
  | none => none
  | some vs =>
    let filtered := vs.filter (fun v => v != p)
    let fm1 := setKey fm k filtered
    some (if filtered.isEmpty then deleteKey fm1 k else fm1)

/-- A watcher event kind (`'add' | 'unlink'`). -/
inductive WatcherEvt where
  | add : WatcherEvt
  | unlink : WatcherEvt
deriving DecidableEq

/-- `processWatcherEvent` proper: dispatch on the event kind; `none` when
the handler throws (absent-key unlink). -/
def processWatcherEvent (evt : WatcherEvt) (p : FsPath) (fm : FileMap)
    (arr : List CreateAliasInput) : Option FileMap :=
  match evt with
  | WatcherEvt.add => some (processAdd fm arr p)
  | WatcherEvt.unlink => processUnlink fm arr p

/-- `CreateViteAliasMapReturnType = {find: string; replacement: string}`;
`replacement` is `replacements[0]`, which is `undefined` (`none`) for an
empty sequence. -/
structure AliasEntry where
  find : String
  replacement : Option FsPath
deriving DecidableEq

/-- `createViteAliasMap`: one pass over the registry's entries producing
the alias map (`{find, replacement: replacements[0]}` per entry, in
registry iteration order) while pushing every entry with more than one
path onto the `duplicates` accumulator.  The duplicates are then handed to
`logMultipleModuleWarnings`, which only writes to the console (not
modelled) — the pair returned here carries both results. -/
def createViteAliasMap (fm : FileMap) :
    List AliasEntry × List (String × List FsPath) :=
  fm.foldl
    (fun acc e =>
      (acc.1 ++ [{ find := e.1, replacement := e.2.head? }],
       if e.2.length > 1 then acc.2 ++ [e] else acc.2))
    ([], [])

/-- The longest-common-prefix split on component lists, as `path.relative`
computes it: peel equal leading components from both paths. -/
def dropCommon : List String → List String → List String × List String
  | a :: as, b :: bs => if a = b then dropCommon as bs else (a :: as, b :: bs)
  | as, bs => (as, bs)

/-- `path.relative(base, target)` on component lists: after removing the
common prefix, one ".." per remaining base component, then the remaining
target components. -/
def relComponents (base target : List String) : List String :=
  let st := dropCommon base target
  st.1.map (fun _ => "..") ++ st.2

/-- `path.resolve(base, rel)` on component lists for a relative `rel`:
walk `rel`, a ".." popping the last component, a "." skipped, any other
component appended. -/
def resolveRel (base : List String) (rel : List String) : List String :=
  rel.foldl
    (fun acc c => if c = ".." then acc.dropLast else if c = "." then acc else acc ++ [c])
    base

/-- Per-character `toLowerCase` on a string's characters.  The comparator
of `writeTsConfigPathsJSON` lowers one side with `toLocaleLowerCase` and
the other with `toLowerCase`; in the default locale the two agree, and the
embedding identifies them. -/
def lowerChars (s : String) : List Char := s.toList.map Char.toLower

/-- Lexicographic less-or-equal on character lists: how JS `<` and `>`
compare strings (by code unit there, by code point here). -/
def charsLe : List Char → List Char → Bool
  | [], _ => true
  | _ :: _, [] => false
  | a :: as, b :: bs =>
      if a < b then true else if b < a then false else charsLe as bs

/-- The ordering the comparator of `writeTsConfigPathsJSON` sorts by:
`cmp(a, b) <= 0` exactly when the lowercased `a` is lexicographically at
most the lowercased `b`. -/
def caseInsLe (a b : String) : Prop :=
  charsLe (lowerChars a) (lowerChars b) = true

instance : DecidableRel caseInsLe := fun _ _ =>
  inferInstanceAs (Decidable (_ = true))

/-- The structural content `writeTsConfigPathsJSON` renders: the registry's
keys sorted by the case-insensitive comparator (JS `Array.prototype.sort`
is a stable comparator sort, embedded as insertion sort), each key paired
with its paths written relative to the base directory `dir` with the
leading `"." + path.sep` prefix (a leading "." component). -/
def serializePaths (dir : List String) (fm : FileMap) :
    List (String × List FsPath) :=
  (List.insertionSort caseInsLe (fm.map (fun e => e.1))).map
    (fun name =>
      (name, ((getKey fm name).getD []).map (fun p => "." :: relComponents dir p)))

/-- `tsConfigPathsToFileMap` after `JSON.parse`: rebuild the registry by
resolving every stored relative path against the base directory `dir`,
keeping the on-disk entry order. -/
def tsConfigPathsToFileMap (dir : List String)
    (entries : List (String × List FsPath)) : FileMap :=
  entries.map (fun e => (e.1, e.2.map (fun rel => resolveRel dir rel)))

/-- Serialize then deserialize: write the registry as
`writeTsConfigPathsJSON` does and read it back as a warm start does. -/
def roundTrip (dir : List String) (fm : FileMap) : FileMap :=
  tsConfigPathsToFileMap dir (serializePaths dir fm)

/-- Settlement of a JS promise: resolved with a value, rejected, or
forever pending (its executor completed without calling `resolve` or
`reject`). -/
inductive Settlement (α : Type) where
  | resolved : α → Settlement α
  | rejected : Settlement α
  | pending : Settlement α
deriving DecidableEq

/-- The warm branch of `createAliasMap`: read the persisted file and
rebuild the alias map from it.  `contents` is the `JSON.parse` outcome of
the file (`none` = malformed).  A parse throw happens inside the
`readFile(...).then(...)` callback: the outer promise's `resolve` is never
called and no `reject` exists, so the bootstrap's result stays pending
(the error escapes as an unhandled rejection). -/
def warmBootstrap (dir : List String)
    (contents : Option (List (String × List FsPath))) :
    Settlement (List AliasEntry) :=
  match contents with
  | none => Settlement.pending
  | some entries =>
      Settlement.resolved (createViteAliasMap (tsConfigPathsToFileMap dir entries)).1

/-- The bootstrap state machine of `createAliasMap`: with the process flag
set, the warm branch (which never consults the watcher); otherwise the
cold branch, folding the watcher's `add`/`unlink` events into the registry
(an event whose handler throws leaves the registry as it was and does not
stop the watch) and resolving with the projection at `ready`. -/
def bootstrap (flag : Bool) (dir : List String)
    (contents : Option (List (String × List FsPath)))
    (events : List (WatcherEvt × FsPath)) (arr : List CreateAliasInput) :
    Settlement (List AliasEntry) :=
  if flag then warmBootstrap dir contents
  else
    let fm := events.foldl
      (fun fm ev => (processWatcherEvent ev.1 ev.2 fm arr).getD fm) []
    Settlement.resolved (createViteAliasMap fm).1

/-- The registry invariant: a present key's path sequence is non-empty. -/
abbrev InvNonEmpty (fm : FileMap) : Prop := ∀ e ∈ fm, e.2 ≠ []

/-- The registry's keys are pairwise distinct (a JS object cannot hold a
key twice). -/
abbrev NodupKeys (fm : FileMap) : Prop := (fm.map (fun e => e.1)).Nodup

/-- A normalized absolute path: no "." or ".." components. -/
abbrev CleanPath (p : FsPath) : Prop := ∀ c ∈ p, c ≠ ".." ∧ c ≠ "."

/-! ### Order facts about the serializer's comparator -/

theorem charsLe_total : ∀ as bs : List Char, charsLe as bs = true ∨ charsLe bs as = true := by
  intro as
  induction as with
  | nil => intro bs; left; rfl
  | cons a as ih =>
    intro bs
    cases bs with
    | nil => right; rfl
    | cons b bs =>
      rcases lt_trichotomy a b with h | h | h
      · left; simp [charsLe, h]
      · subst h
        rcases ih bs with h2 | h2
        · left; simp [charsLe, lt_irrefl, h2]
        · right; simp [charsLe, lt_irrefl, h2]
      · right; simp [charsLe, h]

theorem charsLe_trans : ∀ as bs cs : List Char,
    charsLe as bs = true → charsLe bs cs = true → charsLe as cs = true := by
  intro as
  induction as with
  | nil => intro bs cs _ _; rfl
  | cons a as ih =>
    intro bs cs h1 h2
    cases bs with
    | nil => simp [charsLe] at h1
    | cons b bs =>
      cases cs with
      | nil => simp [charsLe] at h2
      | cons c cs =>
        rcases lt_trichotomy a b with hab | hab | hab
        · rcases lt_trichotomy b c with hbc | hbc | hbc
          · simp [charsLe, lt_trans hab hbc]
          · subst hbc; simp [charsLe, hab]
          · simp [charsLe, hbc, not_lt_of_lt hbc] at h2
        · subst hab
          rcases lt_trichotomy a c with hac | hac | hac
          · simp [charsLe, hac]
          · subst hac
            simp [charsLe, lt_irrefl] at h1 h2 ⊢
            exact ih _ _ h1 h2
          · simp [charsLe, hac, not_lt_of_lt hac] at h2
        · simp [charsLe, hab, not_lt_of_lt hab] at h1

instance : IsTotal String caseInsLe :=
  ⟨fun a b => charsLe_total (lowerChars a) (lowerChars b)⟩

instance : IsTrans String caseInsLe :=
  ⟨fun _ _ _ h1 h2 => charsLe_trans _ _ _ h1 h2⟩

/-! ### The alias projection -/

theorem createViteAliasMap_foldl (fm : FileMap) :
    ∀ acc : List AliasEntry × List (String × List FsPath),
      fm.foldl
        (fun acc e =>
          (acc.1 ++ [{ find := e.1, replacement := e.2.head? }],
           if e.2.length > 1 then acc.2 ++ [e] else acc.2))
        acc
      = (acc.1 ++ fm.map (fun e => { find := e.1, replacement := e.2.head? }),
         acc.2 ++ fm.filter (fun e => decide (1 < e.2.length))) := by
  induction fm with
  | nil => intro acc; simp
  | cons e fm ih =>
    intro acc
    by_cases h : e.2.length > 1
    · simp [List.foldl_cons, ih, h, List.filter_cons]
    · simp [List.foldl_cons, ih, h, List.filter_cons, Nat.not_lt.mp h]

/-- C2: for every Registry, `createViteAliasMap` produces exactly one
`AliasEntry` per registry entry, in registry iteration order, whose
`replacement` is the first element (`replacements[0]`) of that entry's
path sequence, and collects exactly the entries whose sequence is longer
than 1 as the duplicates report; the alias map equals the pure per-entry
projection, so emitting the report changes no chosen replacement. -/
theorem claim_c2_alias_projection (fm : FileMap) :
    (createViteAliasMap fm).1
      = fm.map (fun e => { find := e.1, replacement := e.2.head? })
  ∧ (createViteAliasMap fm).2 = fm.filter (fun e => decide (1 < e.2.length)) := by
  unfold createViteAliasMap
  rw [createViteAliasMap_foldl fm ([], [])]
  simp

/-! ### Serialized key order -/

/-- C7: the keys `writeTsConfigPathsJSON` emits are always in ascending
case-insensitive order and are exactly the registry's keys; in particular
a registry built by adding files named `Zeta`, `alpha`, `Beta` (in that
insertion order) serializes with key order `alpha, Beta, Zeta`. -/
theorem claim_c7_persisted_key_order :
    (∀ (dir : List String) (fm : FileMap),
        List.Sorted caseInsLe ((serializePaths dir fm).map (fun e => e.1))
      ∧ List.Perm ((serializePaths dir fm).map (fun e => e.1))
          (fm.map (fun e => e.1)))
  ∧ (serializePaths ["r"]
        (processAdd
          (processAdd (processAdd [] [] ["r", "Zeta.ts"]) [] ["r", "alpha.ts"])
          [] ["r", "Beta.ts"])).map (fun e => e.1)
      = ["alpha", "Beta", "Zeta"] := by
  constructor
  · intro dir fm
    constructor
    · simpa [serializePaths, List.map_map, Function.comp_def]
        using List.sorted_insertionSort caseInsLe (fm.map (fun e => e.1))
    · simpa [serializePaths, List.map_map, Function.comp_def]
        using List.perm_insertionSort caseInsLe (fm.map (fun e => e.1))
  · decide

/-! ### Registry access lemmas -/

theorem getKey_cons (e : String × List FsPath) (fm : FileMap) (k : String) :
    getKey (e :: fm) k = if e.1 == k then some e.2 else getKey fm k := by
  by_cases h : e.1 == k <;> simp [getKey, List.find?_cons, h]

theorem any_key_eq_isSome (fm : FileMap) (k : String) :
    fm.any (fun e => e.1 == k) = (getKey fm k).isSome := by
  induction fm with
  | nil => rfl
  | cons e fm ih =>
    by_cases h : e.1 == k <;> simp [List.any_cons, h, getKey_cons, ih]

theorem getKey_append_of_none {fm : FileMap} {k : String}
    (h : getKey fm k = none) (l : FileMap) : getKey (fm ++ l) k = getKey l k := by
  induction fm with
  | nil => rfl
  | cons e fm ih =>
    rw [getKey_cons] at h
    by_cases he : e.1 == k
    · simp [he] at h
    · rw [List.cons_append, getKey_cons]
      simp only [he, if_false]
      exact ih (by simpa [he] using h)


theorem getKey_map_update_ne (k k' : String) (v : List FsPath) (hk : k' ≠ k)
    (fm : FileMap) :
    getKey (fm.map (fun e => if e.1 == k then (k, v) else e)) k'
      = getKey fm k' := by
  induction fm with
  | nil => rfl
  | cons e fm ih =>
    obtain ⟨ek, ev⟩ := e
    by_cases he : ek = k
    · subst he
      rw [List.map_cons, if_pos (by simp), getKey_cons, getKey_cons,
        if_neg (by simp [Ne.symm hk]), if_neg (by simp [Ne.symm hk])]
      exact ih
    · rw [List.map_cons, if_neg (by simpa using he), getKey_cons, getKey_cons]
      by_cases he' : ek = k'
      · rw [if_pos (by simpa using he'), if_pos (by simpa using he')]
      · rw [if_neg (by simpa using he'), if_neg (by simpa using he')]
        exact ih

theorem getKey_map_update_self (k : String) (v : List FsPath) (fm : FileMap)
    (h : fm.any (fun e => e.1 == k) = true) :
    getKey (fm.map (fun e => if e.1 == k then (k, v) else e)) k = some v := by
  induction fm with
  | nil => simp at h
  | cons e fm ih =>
    obtain ⟨ek, ev⟩ := e
    by_cases he : ek = k
    · subst he
      rw [List.map_cons, if_pos (by simp), getKey_cons, if_pos (by simp)]
    · rw [List.map_cons, if_neg (by simpa using he), getKey_cons,
        if_neg (by simpa using he)]
      have h2 : fm.any (fun e => e.1 == k) = true := by
        simp only [List.any_cons, Bool.or_eq_true] at h
        rcases h with h | h
        · exact absurd (by simpa using h) he
        · exact h
      exact ih h2

theorem getKey_setKey_self (fm : FileMap) (k : String) (v : List FsPath) :
    getKey (setKey fm k v) k = some v := by
  unfold setKey
  by_cases h : fm.any (fun e => e.1 == k) = true
  · rw [if_pos h]
    exact getKey_map_update_self k v fm h
  · rw [if_neg h]
    have hn : getKey fm k = none := by
      rw [any_key_eq_isSome] at h
      exact Option.not_isSome_iff_eq_none.mp (by simpa using h)
    rw [getKey_append_of_none hn, getKey_cons, if_pos (by simp)]

theorem getKey_setKey_ne (fm : FileMap) (k : String) (v : List FsPath)
    (k' : String) (hk : k' ≠ k) : getKey (setKey fm k v) k' = getKey fm k' := by
  unfold setKey
  by_cases h : fm.any (fun e => e.1 == k) = true
  · rw [if_pos h]
    exact getKey_map_update_ne k k' v hk fm
  · rw [if_neg h]
    induction fm with
    | nil => rw [List.nil_append, getKey_cons, if_neg (by simp [Ne.symm hk])]
    | cons e fm ih =>
      rw [List.cons_append, getKey_cons, getKey_cons]
      by_cases he : e.1 == k'
      · rw [if_pos he, if_pos he]
      · rw [if_neg (by simpa using he), if_neg (by simpa using he)]
        have h2 : ¬ fm.any (fun e => e.1 == k) = true := by
          simp only [List.any_cons, Bool.or_eq_true] at h
          exact fun hh => h (Or.inr hh)
        exact ih h2

theorem getKey_deleteKey_self (fm : FileMap) (k : String) :
    getKey (deleteKey fm k) k = none := by
  induction fm with
  | nil => rfl
  | cons e fm ih =>
    unfold deleteKey
    rw [List.filter_cons]
    by_cases he : e.1 = k
    · rw [if_neg (by simp [he])]
      exact ih
    · rw [if_pos (by simpa using he), getKey_cons, if_neg (by simpa using he)]
      exact ih

theorem getKey_deleteKey_ne (fm : FileMap) (k k' : String) (hk : k' ≠ k) :
    getKey (deleteKey fm k) k' = getKey fm k' := by
  induction fm with
  | nil => rfl
  | cons e fm ih =>
    unfold deleteKey
    rw [List.filter_cons, getKey_cons]
    by_cases he : e.1 = k
    · rw [if_neg (by simp [he]), if_neg (by simp [he, Ne.symm hk])]
      exact ih
    · rw [if_pos (by simpa using he), getKey_cons]
      by_cases he' : e.1 = k'
      · rw [if_pos (by simpa using he'), if_pos (by simpa using he')]
      · rw [if_neg (by simpa using he'), if_neg (by simpa using he')]
        exact ih

theorem mem_setKey {e : String × List FsPath} {fm : FileMap} {k : String}
    {v : List FsPath} (he : e ∈ setKey fm k v) : e ∈ fm ∨ e = (k, v) := by
  unfold setKey at he
  by_cases h : fm.any (fun e => e.1 == k) = true
  · rw [if_pos h] at he
    obtain ⟨f, hf, hfe⟩ := List.mem_map.mp he
    by_cases hfk : f.1 == k
    · rw [if_pos hfk] at hfe
      exact Or.inr hfe.symm
    · rw [if_neg hfk] at hfe
      exact Or.inl (hfe ▸ hf)
  · rw [if_neg h] at he
    rcases List.mem_append.mp he with h1 | h1
    · exact Or.inl h1
    · exact Or.inr (List.mem_singleton.mp h1)

theorem mem_deleteKey {e : String × List FsPath} {fm : FileMap} {k : String}
    (he : e ∈ deleteKey fm k) : e ∈ fm ∧ e.1 ≠ k := by
  unfold deleteKey at he
  have h := List.mem_filter.mp he
  exact ⟨h.1, by simpa using h.2⟩

theorem getKey_some_mem {fm : FileMap} {k : String} {vs : List FsPath}
    (h : getKey fm k = some vs) : (k, vs) ∈ fm := by
  unfold getKey at h
  obtain ⟨e, hf, he⟩ := Option.map_eq_some'.mp h
  have hm := List.mem_of_find?_eq_some hf
  have hp : e.1 = k := by simpa using List.find?_some hf
  obtain ⟨ek, ev⟩ := e
  cases hp
  cases he
  exact hm

theorem getKey_none_of_not_mem {fm : FileMap} {k : String}
    (h : k ∉ fm.map (fun e => e.1)) : getKey fm k = none := by
  unfold getKey
  rw [List.find?_eq_none.mpr
    (fun e he hbeq => h (List.mem_map.mpr ⟨e, he, by simpa using hbeq⟩))]
  rfl

theorem getKey_isSome_of_mem_keys {fm : FileMap} {k : String}
    (h : k ∈ fm.map (fun e => e.1)) : ∃ vs, getKey fm k = some vs := by
  obtain ⟨e, he, hek⟩ := List.mem_map.mp h
  have : (fm.find? (fun e => e.1 == k)).isSome := by
    rw [List.find?_isSome]
    exact ⟨e, he, by simpa using hek⟩
  obtain ⟨f, hf⟩ := Option.isSome_iff_exists.mp this
  exact ⟨f.2, by unfold getKey; rw [hf]; rfl⟩

/-! ### The mutation protocol -/

theorem processAdd_eq (fm : FileMap) (arr : List CreateAliasInput) (p : FsPath) :
    processAdd fm arr p
      = setKey fm (mapKeyOf arr p)
          (((getKey fm (mapKeyOf arr p)).getD []) ++ [p]) := rfl

theorem processUnlink_eq (fm : FileMap) (arr : List CreateAliasInput) (p : FsPath) :
    processUnlink fm arr p
      = match getKey fm (mapKeyOf arr p) with
        | none => none
        | some vs =>
            some
              (if (vs.filter (fun v => v != p)).isEmpty then
                deleteKey
                  (setKey fm (mapKeyOf arr p) (vs.filter (fun v => v != p)))
                  (mapKeyOf arr p)
              else setKey fm (mapKeyOf arr p) (vs.filter (fun v => v != p))) := by
  simp only [processUnlink]

/-- C3: the non-emptiness invariant (a key is present only with a
non-empty path sequence) is preserved by both mutations: `add` never
creates an empty sequence and `unlink` deletes the key whenever the
removal empties its sequence. -/
theorem claim_c3_invariant_preserved (fm : FileMap)
    (arr : List CreateAliasInput) (p : FsPath) (hInv : InvNonEmpty fm) :
    InvNonEmpty (processAdd fm arr p)
  ∧ ∀ fm', processUnlink fm arr p = some fm' → InvNonEmpty fm' := by
  constructor
  · intro e he
    rw [processAdd_eq] at he
    rcases mem_setKey he with hm | rfl
    · exact hInv e hm
    · simp
  · intro fm' hu e he
    rw [processUnlink_eq] at hu
    cases hg : getKey fm (mapKeyOf arr p) with
    | none => rw [hg] at hu; cases hu
    | some vs =>
      rw [hg] at hu
      have hu' := Option.some.inj hu
      by_cases hemp : (vs.filter (fun v => v != p)).isEmpty = true
      · rw [if_pos hemp] at hu'
        subst hu'
        obtain ⟨hmem, hne⟩ := mem_deleteKey he
        rcases mem_setKey hmem with hm | rfl
        · exact hInv e hm
        · exact absurd rfl hne
      · rw [if_neg hemp] at hu'
        subst hu'
        rcases mem_setKey he with hm | rfl
        · exact hInv e hm
        · simpa [List.isEmpty_iff] using hemp

/-- C3 witness: a concrete registry satisfying the invariant, an `add`
and an `unlink` on it, with the invariant evaluated on the results. -/
theorem claim_c3_witness :
    InvNonEmpty [("A", [["r", "A.ts"], ["x", "A.ts"]])]
  ∧ InvNonEmpty
      (processAdd [("A", [["r", "A.ts"], ["x", "A.ts"]])] [] ["r", "A.ts"])
  ∧ InvNonEmpty [("A", [["x", "A.ts"]])] :=
  ⟨by decide,
   (claim_c3_invariant_preserved [("A", [["r", "A.ts"], ["x", "A.ts"]])] []
      ["r", "A.ts"] (by decide)).1,
   (claim_c3_invariant_preserved [("A", [["r", "A.ts"], ["x", "A.ts"]])] []
      ["r", "A.ts"] (by decide)).2 [("A", [["x", "A.ts"]])] (by decide)⟩

/-- C9: one `unlink` removes every occurrence of the path from its key's
sequence (`filter` semantics): no element of the surviving sequence equals
the removed path. -/
theorem claim_c9_remove_all_occurrences (fm : FileMap)
    (arr : List CreateAliasInput) (p : FsPath) (fm' : FileMap)
    (vs' : List FsPath) (hu : processUnlink fm arr p = some fm')
    (hg : getKey fm' (mapKeyOf arr p) = some vs') : p ∉ vs' := by
  rw [processUnlink_eq] at hu
  cases hvs : getKey fm (mapKeyOf arr p) with
  | none => rw [hvs] at hu; cases hu
  | some vs =>
    rw [hvs] at hu
    have hu' := Option.some.inj hu
    by_cases hemp : (vs.filter (fun v => v != p)).isEmpty = true
    · rw [if_pos hemp] at hu'
      subst hu'
      rw [getKey_deleteKey_self] at hg
      cases hg
    · rw [if_neg hemp] at hu'
      subst hu'
      rw [getKey_setKey_self] at hg
      have hvs' := Option.some.inj hg
      subst hvs'
      intro hp
      have := (List.mem_filter.mp hp).2
      simp at this

/-- C9 witness: removing a path appended twice clears both copies at
once. -/
theorem claim_c9_witness : (["r", "A.ts"] : FsPath) ∉ [(["x", "A.ts"] : FsPath)] :=
  claim_c9_remove_all_occurrences
    [("A", [["r", "A.ts"], ["x", "A.ts"], ["r", "A.ts"]])] [] ["r", "A.ts"]
    [("A", [["x", "A.ts"]])] [["x", "A.ts"]] (by decide) (by decide)

/-- C10: `add` and `unlink` touch at most the entry of the processed
path's ModuleKey: every other key's value is unchanged. -/
theorem claim_c10_frame (fm : FileMap) (arr : List CreateAliasInput)
    (p : FsPath) (k' : String) (hk : k' ≠ mapKeyOf arr p) :
    getKey (processAdd fm arr p) k' = getKey fm k'
  ∧ ∀ fm', processUnlink fm arr p = some fm' → getKey fm' k' = getKey fm k' := by
  constructor
  · rw [processAdd_eq]
    exact getKey_setKey_ne fm _ _ k' hk
  · intro fm' hu
    rw [processUnlink_eq] at hu
    cases hvs : getKey fm (mapKeyOf arr p) with
    | none => rw [hvs] at hu; cases hu
    | some vs =>
      rw [hvs] at hu
      have hu' := Option.some.inj hu
      by_cases hemp : (vs.filter (fun v => v != p)).isEmpty = true
      · rw [if_pos hemp] at hu'
        subst hu'
        rw [getKey_deleteKey_ne _ _ _ hk, getKey_setKey_ne _ _ _ _ hk]
      · rw [if_neg hemp] at hu'
        subst hu'
        rw [getKey_setKey_ne _ _ _ _ hk]

/-- C10 witness: a concrete two-key registry where mutating under key `A`
leaves key `B` untouched. -/
theorem claim_c10_witness :
    getKey (processAdd [("A", [["r", "A.ts"]]), ("B", [["r", "B.ts"]])] []
        ["r", "A.ts"]) "B"
      = getKey [("A", [["r", "A.ts"]]), ("B", [["r", "B.ts"]])] "B"
  ∧ getKey [("B", [["r", "B.ts"]])] "B"
      = getKey [("A", [["r", "A.ts"]]), ("B", [["r", "B.ts"]])] "B" :=
  ⟨(claim_c10_frame [("A", [["r", "A.ts"]]), ("B", [["r", "B.ts"]])] []
      ["r", "A.ts"] "B" (by decide)).1,
   (claim_c10_frame [("A", [["r", "A.ts"]]), ("B", [["r", "B.ts"]])] []
      ["r", "A.ts"] "B" (by decide)).2 [("B", [["r", "B.ts"]])] (by decide)⟩

theorem processUnlink_none (fm : FileMap) (arr : List CreateAliasInput)
    (p : FsPath) (h : getKey fm (mapKeyOf arr p) = none) :
    processUnlink fm arr p = none := by
  rw [processUnlink_eq, h]

theorem processUnlink_some (fm : FileMap) (arr : List CreateAliasInput)
    (p : FsPath) (vs : List FsPath) (h : getKey fm (mapKeyOf arr p) = some vs) :
    processUnlink fm arr p
      = some
          (if (vs.filter (fun v => v != p)).isEmpty then
            deleteKey
              (setKey fm (mapKeyOf arr p) (vs.filter (fun v => v != p)))
              (mapKeyOf arr p)
          else setKey fm (mapKeyOf arr p) (vs.filter (fun v => v != p))) := by
  rw [processUnlink_eq, h]

theorem setKey_setKey (fm : FileMap) (k : String) (v w : List FsPath) :
    setKey (setKey fm k v) k w = setKey fm k w := by
  by_cases h : fm.any (fun e => e.1 == k) = true
  · have h1 : setKey fm k v = fm.map (fun e => if e.1 == k then (k, v) else e) := by
      unfold setKey; rw [if_pos h]
    have h2 : setKey fm k w = fm.map (fun e => if e.1 == k then (k, w) else e) := by
      unfold setKey; rw [if_pos h]
    have hany2 : (fm.map (fun e => if e.1 == k then (k, v) else e)).any
        (fun e => e.1 == k) = true := by
      obtain ⟨e, he, hpe⟩ := List.any_eq_true.mp h
      exact List.any_eq_true.mpr
        ⟨(k, v), List.mem_map.mpr ⟨e, he, by rw [if_pos hpe]⟩, by simp⟩
    rw [h1, h2]
    unfold setKey
    rw [if_pos hany2, List.map_map]
    apply List.map_congr_left
    intro e _
    by_cases hek : e.1 == k
    · simp [Function.comp, hek]
    · simp [Function.comp, hek]
  · have h1 : setKey fm k v = fm ++ [(k, v)] := by
      unfold setKey; rw [if_neg h]
    have h2 : setKey fm k w = fm ++ [(k, w)] := by
      unfold setKey; rw [if_neg h]
    rw [h1, h2]
    have hany2 : (fm ++ [(k, v)]).any (fun e => e.1 == k) = true := by
      rw [List.any_append]; simp
    unfold setKey
    rw [if_pos hany2, List.map_append]
    congr 1
    · have hall := List.any_eq_false.mp (Bool.not_eq_true _ ▸ h)
      have : ∀ e ∈ fm, (if e.1 == k then (k, w) else e) = (fun e => e) e := by
        intro e he
        rw [if_neg (by simpa using hall e he)]
      rw [List.map_congr_left this, List.map_id']
    · simp

theorem nodup_entry_eq (fm : FileMap) (k : String) (vs : List FsPath)
    (hnd : NodupKeys fm) (hg : getKey fm k = some vs) :
    ∀ e ∈ fm, e.1 = k → e = (k, vs) := by
  induction fm with
  | nil => intro e he; cases he
  | cons f fm ih =>
    obtain ⟨fk, fv⟩ := f
    have hnd0 : ((fk, fv).1 :: fm.map (fun e => e.1)).Nodup := by
      simpa only [List.map_cons] using hnd
    have hnd' := List.nodup_cons.mp hnd0
    rw [getKey_cons] at hg
    intro e he hek
    by_cases hf : fk = k
    · subst hf
      rw [if_pos (by simp)] at hg
      have hv := Option.some.inj hg
      rcases List.mem_cons.mp he with rfl | hem
      · rw [← hv]
      · exact absurd (List.mem_map.mpr ⟨e, hem, hek⟩) hnd'.1
    · rw [if_neg (by simpa using hf)] at hg
      rcases List.mem_cons.mp he with rfl | hem
      · exact absurd hek hf
      · exact ih hnd'.2 hg e hem hek

theorem setKey_getKey_self (fm : FileMap) (k : String) (vs : List FsPath)
    (hnd : NodupKeys fm) (hg : getKey fm k = some vs) : setKey fm k vs = fm := by
  have hany : fm.any (fun e => e.1 == k) = true := by
    rw [any_key_eq_isSome, hg]; rfl
  unfold setKey
  rw [if_pos hany]
  have : ∀ e ∈ fm, (if e.1 == k then (k, vs) else e) = (fun e => e) e := by
    intro e he
    by_cases hek : e.1 == k
    · rw [if_pos hek, nodup_entry_eq fm k vs hnd hg e he (by simpa using hek)]
    · rw [if_neg hek]
  rw [List.map_congr_left this, List.map_id']

theorem deleteKey_setKey (fm : FileMap) (k : String) (v : List FsPath) :
    deleteKey (setKey fm k v) k = deleteKey fm k := by
  unfold setKey
  by_cases h : fm.any (fun e => e.1 == k) = true
  · rw [if_pos h]
    unfold deleteKey
    rw [List.filter_map]
    have hpred : ∀ e ∈ fm,
        ((fun e => e.1 != k) ∘ (fun e => if e.1 == k then (k, v) else e)) e
          = (fun e => e.1 != k) e := by
      intro e _
      by_cases hek : e.1 == k
      · simp [Function.comp, hek, show e.1 = k from by simpa using hek]
      · simp [Function.comp, hek]
    rw [List.filter_congr hpred]
    have : ∀ e ∈ fm.filter (fun e => e.1 != k),
        (if e.1 == k then (k, v) else e) = (fun e => e) e := by
      intro e he
      have h2 := (List.mem_filter.mp he).2
      rw [if_neg (by simpa using h2)]
    rw [List.map_congr_left this, List.map_id']
  · rw [if_neg h]
    unfold deleteKey
    rw [List.filter_append]
    simp

theorem deleteKey_of_absent (fm : FileMap) (k : String)
    (h : fm.any (fun e => e.1 == k) = false) : deleteKey fm k = fm := by
  unfold deleteKey
  apply List.filter_eq_self.mpr
  intro e he
  simpa using List.any_eq_false.mp h e he

/-- C4 counterexample: on the registry `{A: [r/A.ts]}`, adding `r/A.ts`
(a second, undeduplicated copy) and then removing it empties the key —
`filter` removes both copies — so the registry is not restored. -/
theorem claim_c4_counterexample :
    processUnlink (processAdd [("A", [["r", "A.ts"]])] [] ["r", "A.ts"]) []
        ["r", "A.ts"]
      = some []
  ∧ ([] : FileMap) ≠ [("A", [["r", "A.ts"]])] := by decide

/-- C4 (amended): adding a path `P` and then removing `P` restores the
registry exactly, provided `P` was not already present under its
ModuleKey (and the registry has distinct keys and non-empty sequences). -/
theorem claim_c4_add_remove_roundtrip (fm : FileMap)
    (arr : List CreateAliasInput) (p : FsPath) (hnd : NodupKeys fm)
    (hInv : InvNonEmpty fm)
    (hnp : p ∉ (getKey fm (mapKeyOf arr p)).getD []) :
    processUnlink (processAdd fm arr p) arr p = some fm := by
  rw [processAdd_eq]
  cases hg : getKey fm (mapKeyOf arr p) with
  | none =>
    simp only [Option.getD_none, List.nil_append]
    rw [processUnlink_some _ arr p [p] (getKey_setKey_self fm _ [p])]
    have hfilt : ([p] : List FsPath).filter (fun v => v != p) = [] := by simp
    rw [hfilt]
    rw [if_pos (show ([] : List FsPath).isEmpty = true from rfl)]
    rw [deleteKey_setKey, deleteKey_setKey]
    rw [deleteKey_of_absent fm _ (by
      rw [any_key_eq_isSome, hg]; rfl)]
  | some vs =>
    simp only [Option.getD_some]
    have hvs_ne : vs ≠ [] := hInv (mapKeyOf arr p, vs) (getKey_some_mem hg)
    have hp_notin : p ∉ vs := by
      rw [hg] at hnp
      simpa using hnp
    rw [processUnlink_some _ arr p (vs ++ [p])
      (getKey_setKey_self fm _ (vs ++ [p]))]
    have hfilt : (vs ++ [p]).filter (fun v => v != p) = vs := by
      rw [List.filter_append]
      have h1 : vs.filter (fun v => v != p) = vs :=
        List.filter_eq_self.mpr (fun v hv => by
          simp only [bne_iff_ne, ne_eq, decide_eq_true_eq]
          exact fun hvp => hp_notin (hvp ▸ hv))
      have h2 : ([p] : List FsPath).filter (fun v => v != p) = [] := by simp
      rw [h1, h2, List.append_nil]
    rw [hfilt]
    rw [if_neg (by simpa [List.isEmpty_iff] using hvs_ne)]
    rw [setKey_setKey, setKey_getKey_self fm _ vs hnd hg]

/-- C4 witness: adding then removing a fresh path under an absent key
restores a concrete registry. -/
theorem claim_c4_witness :
    NodupKeys [("B", [["r", "B.ts"]])]
  ∧ InvNonEmpty [("B", [["r", "B.ts"]])]
  ∧ processUnlink (processAdd [("B", [["r", "B.ts"]])] [] ["r", "A.ts"]) []
      ["r", "A.ts"]
      = some [("B", [["r", "B.ts"]])] :=
  ⟨by decide, by decide,
   claim_c4_add_remove_roundtrip [("B", [["r", "B.ts"]])] [] ["r", "A.ts"]
     (by decide) (by decide) (by decide)⟩

/-- C5 counterexample: removing a path whose ModuleKey is absent is not a
no-op: `fileMap[mapKey]` is `undefined` and `.filter` throws, so the
handler fails (`none`) instead of returning the registry unchanged. -/
theorem claim_c5_counterexample :
    processUnlink [] [] ["r", "A.ts"] = none
  ∧ (none : Option FileMap) ≠ some [] := by decide

/-- C5 (amended): removing a path that is absent from its key's sequence,
when the key itself is present, is a no-op and does not fail. -/
theorem claim_c5_remove_absent_noop (fm : FileMap)
    (arr : List CreateAliasInput) (p : FsPath) (vs : List FsPath)
    (hnd : NodupKeys fm) (hInv : InvNonEmpty fm)
    (hg : getKey fm (mapKeyOf arr p) = some vs) (hnp : p ∉ vs) :
    processUnlink fm arr p = some fm := by
  rw [processUnlink_some fm arr p vs hg]
  have hvs_ne : vs ≠ [] := hInv (mapKeyOf arr p, vs) (getKey_some_mem hg)
  have hfilt : vs.filter (fun v => v != p) = vs :=
    List.filter_eq_self.mpr (fun v hv => by
      simp only [bne_iff_ne, ne_eq, decide_eq_true_eq]
      exact fun hvp => hnp (hvp ▸ hv))
  rw [hfilt]
  rw [if_neg (by simpa [List.isEmpty_iff] using hvs_ne)]
  rw [setKey_getKey_self fm _ vs hnd hg]

/-- C5 witness: removing a path not in the (present) key's sequence on a
concrete registry returns it unchanged. -/
theorem claim_c5_witness :
    NodupKeys [("A", [["x", "A.ts"]])]
  ∧ InvNonEmpty [("A", [["x", "A.ts"]])]
  ∧ getKey [("A", [["x", "A.ts"]])] (mapKeyOf [] ["r", "A.ts"])
      = some [["x", "A.ts"]]
  ∧ processUnlink [("A", [["x", "A.ts"]])] [] ["r", "A.ts"]
      = some [("A", [["x", "A.ts"]])] :=
  ⟨by decide, by decide, by decide,
   claim_c5_remove_absent_noop [("A", [["x", "A.ts"]])] [] ["r", "A.ts"]
     [["x", "A.ts"]] (by decide) (by decide) (by decide) (by decide)⟩

/-! ### ModuleKey derivation -/

/-- C8 counterexample: a source spec may configure the empty string as its
prefix; the code's truthiness test then drops the prefix and the
separator, so the key is the bare basename, not
`prefix + separator + basename`. -/
theorem claim_c8_counterexample :
    getImportPrefix ["r", "A.ts"]
        [{ sourcePath := [], importPrefix := some "" }] = some ""
  ∧ mapKeyOf [{ sourcePath := [], importPrefix := some "" }] ["r", "A.ts"]
      ≠ "" ++ pathSep ++ parseName ((["r", "A.ts"] : FsPath).getLastD "") := by
  decide

/-- C8 (amended): the ModuleKey is `prefix + path.sep + basename` whenever
the file's matching source spec supplies a non-empty prefix, and the bare
basename when no prefix is supplied or the supplied prefix is the empty
string (JS truthiness). -/
theorem claim_c8_module_key (arr : List CreateAliasInput) (p : FsPath) :
    (∀ pre, getImportPrefix p arr = some pre → pre ≠ "" →
        mapKeyOf arr p = pre ++ pathSep ++ parseName (p.getLastD ""))
  ∧ ((getImportPrefix p arr).getD "" = "" →
        mapKeyOf arr p = parseName (p.getLastD "")) := by
  constructor
  · intro pre hpre hne
    unfold mapKeyOf
    rw [hpre]
    simp only [Option.getD_some]
    rw [if_neg (by simpa using hne)]
  · intro h
    unfold mapKeyOf
    rw [h]
    rw [if_pos (by simp)]

/-- C8 witness: a concrete spec with prefix `@c` yields the key
`@c/<basename>`. -/
theorem claim_c8_witness :
    mapKeyOf [{ sourcePath := ["r"], importPrefix := some "@c" }]
        ["r", "A.ts"]
      = "@c" ++ pathSep
          ++ parseName ((["r", "A.ts"] : FsPath).getLastD "") :=
  (claim_c8_module_key
    [{ sourcePath := ["r"], importPrefix := some "@c" }] ["r", "A.ts"]).1
    "@c" (by decide) (by decide)

/-! ### Warm-path failure semantics -/

/-- C6 counterexample: with the process flag set and a malformed persisted
file, the bootstrap's result is `pending` — the parse throw happens inside
the `readFile(...).then` callback, the executor's `resolve` is never
reached and no `reject` exists — so the result is not a rejection visible
to the caller. -/
theorem claim_c6_counterexample :
    bootstrap true [] none [] [] = Settlement.pending
  ∧ (Settlement.pending : Settlement (List AliasEntry))
      ≠ Settlement.rejected := by decide

/-- C6 (amended): on the warm path a malformed persisted file means the
bootstrap never produces a result — its promise stays pending forever (the
parse error escapes as an unhandled rejection instead of settling the
bootstrap's result) — and no fallback cold scan is attempted: the outcome
is the same whatever watcher events a scan would have delivered. -/
theorem claim_c6_malformed_warm_path (dir : List String)
    (arr : List CreateAliasInput) (events : List (WatcherEvt × FsPath)) :
    bootstrap true dir none events arr = Settlement.pending := rfl

/-! ### Codec round-trip -/

theorem dropCommon_spec :
    ∀ a b : List String,
      ∃ c, a = c ++ (dropCommon a b).1 ∧ b = c ++ (dropCommon a b).2 := by
  intro a
  induction a with
  | nil =>
    intro b
    exact ⟨[], by simp [dropCommon], by cases b <;> simp [dropCommon]⟩
  | cons x xs ih =>
    intro b
    cases b with
    | nil => exact ⟨[], by simp [dropCommon], by simp [dropCommon]⟩
    | cons y ys =>
      by_cases h : x = y
      · subst h
        obtain ⟨c, h1, h2⟩ := ih ys
        refine ⟨x :: c, ?_, ?_⟩
        · rw [List.cons_append]
          rw [show dropCommon (x :: xs) (x :: ys) = dropCommon xs ys by
            simp [dropCommon]]
          rw [← h1]
        · rw [List.cons_append]
          rw [show dropCommon (x :: xs) (x :: ys) = dropCommon xs ys by
            simp [dropCommon]]
          rw [← h2]
      · exact ⟨[], by simp [dropCommon, h], by simp [dropCommon, h]⟩

theorem resolveRel_append (base r1 r2 : List String) :
    resolveRel base (r1 ++ r2) = resolveRel (resolveRel base r1) r2 := by
  simp [resolveRel, List.foldl_append]

theorem resolveRel_dotdot (f : List String) :
    ∀ c : List String,
      resolveRel (c ++ f) (List.replicate f.length "..") = c := by
  induction f using List.reverseRecOn with
  | nil => intro c; simp [resolveRel]
  | append_singleton f x ih =>
    intro c
    rw [List.length_append, List.length_singleton, List.replicate_succ]
    unfold resolveRel
    rw [List.foldl_cons]
    rw [if_pos rfl]
    rw [← List.append_assoc, List.dropLast_concat]
    exact ih c

theorem resolveRel_clean :
    ∀ t c : List String, (∀ x ∈ t, x ≠ ".." ∧ x ≠ ".") →
      resolveRel c t = c ++ t := by
  intro t
  induction t with
  | nil => intro c _; simp [resolveRel]
  | cons x ts ih =>
    intro c h
    have hx := h x (List.mem_cons_self x ts)
    unfold resolveRel
    rw [List.foldl_cons, if_neg hx.1, if_neg hx.2]
    have := ih (c ++ [x]) (fun y hy => h y (List.mem_cons_of_mem x hy))
    unfold resolveRel at this
    rw [this, List.append_assoc, List.singleton_append]

theorem roundTripPath (dir p : List String) (h : CleanPath p) :
    resolveRel dir ("." :: relComponents dir p) = p := by
  obtain ⟨c, hd, hp⟩ := dropCommon_spec dir p
  have hdot : resolveRel dir ("." :: relComponents dir p)
      = resolveRel dir (relComponents dir p) := by
    unfold resolveRel
    rw [List.foldl_cons, if_neg (by decide : ¬ ("." : String) = ".."),
      if_pos rfl]
  rw [hdot]
  simp only [relComponents]
  set f := (dropCommon dir p).1 with hf
  set t := (dropCommon dir p).2 with ht
  rw [List.map_const']
  rw [resolveRel_append]
  rw [hd]
  rw [resolveRel_dotdot]
  rw [resolveRel_clean t c
    (fun x hx => h x (by rw [hp]; exact List.mem_append_right c hx))]
  exact hp.symm

theorem getKey_map_pair (l : List String) (g : String → List FsPath)
    (k : String) :
    getKey (l.map (fun n => (n, g n))) k
      = if k ∈ l then some (g k) else none := by
  induction l with
  | nil => simp [getKey]
  | cons n l ih =>
    rw [List.map_cons, getKey_cons]
    by_cases hn : n = k
    · subst hn
      rw [if_pos (by simp), if_pos (List.mem_cons_self n l)]
    · rw [if_neg (by simpa using hn), ih]
      by_cases hk : k ∈ l
      · rw [if_pos hk, if_pos (List.mem_cons_of_mem n hk)]
      · rw [if_neg hk, if_neg (by simp [hk, Ne.symm hn])]

/-- C1: serializing a Registry with `writeTsConfigPathsJSON` and
deserializing with `tsConfigPathsToFileMap` reproduces the Registry up to
absolute/relative path representation: the key set is preserved (as a
permutation of distinct keys — the file stores them sorted) and every
key's path list is reproduced exactly, in content and order, once each
stored relative path is resolved against the fixed base directory. -/
theorem claim_c1_roundtrip (dir : List String) (fm : FileMap)
    (_hnd : NodupKeys fm)
    (hcl : ∀ e ∈ fm, ∀ q ∈ e.2, CleanPath q) :
    List.Perm ((roundTrip dir fm).map (fun e => e.1)) (fm.map (fun e => e.1))
  ∧ ∀ k, getKey (roundTrip dir fm) k = getKey fm k := by
  have hrt : roundTrip dir fm
      = (List.insertionSort caseInsLe (fm.map (fun e => e.1))).map
          (fun n => (n,
            (((getKey fm n).getD []).map
                (fun q => "." :: relComponents dir q)).map
              (fun rel => resolveRel dir rel))) := by
    simp [roundTrip, tsConfigPathsToFileMap, serializePaths, List.map_map,
      Function.comp_def]
  constructor
  · rw [hrt, List.map_map]
    have hid : ((fun e : String × List FsPath => e.1) ∘
        (fun n => (n,
          (((getKey fm n).getD []).map
              (fun q => "." :: relComponents dir q)).map
            (fun rel => resolveRel dir rel)))) = fun n => n := rfl
    rw [hid, List.map_id']
    exact List.perm_insertionSort caseInsLe (fm.map (fun e => e.1))
  · intro k
    rw [hrt, getKey_map_pair]
    by_cases hk : k ∈ fm.map (fun e => e.1)
    · rw [if_pos (by simpa using hk)]
      obtain ⟨vs, hg⟩ := getKey_isSome_of_mem_keys hk
      rw [hg, Option.getD_some, List.map_map]
      have hpt : ∀ q ∈ vs,
          ((fun rel => resolveRel dir rel) ∘
            (fun q => "." :: relComponents dir q)) q = (fun q => q) q := by
        intro q hq
        exact roundTripPath dir q (hcl (k, vs) (getKey_some_mem hg) q hq)
      rw [List.map_congr_left hpt, List.map_id']
    · rw [if_neg (by simpa using hk), getKey_none_of_not_mem hk]

/-- C1 witness: a concrete two-key registry (one key with two paths, one
outside the base directory) that round-trips exactly. -/
theorem claim_c1_witness :
    (NodupKeys [("u", [["h", "a", "u.ts"], ["x", "u.ts"]]), ("A", [["h", "A.tsx"]])]
      ∧ ∀ e ∈ ([("u", [["h", "a", "u.ts"], ["x", "u.ts"]]),
          ("A", [["h", "A.tsx"]])] : FileMap), ∀ q ∈ e.2, CleanPath q)
  ∧ (List.Perm
      ((roundTrip ["h"]
          [("u", [["h", "a", "u.ts"], ["x", "u.ts"]]),
           ("A", [["h", "A.tsx"]])]).map (fun e => e.1))
      (([("u", [["h", "a", "u.ts"], ["x", "u.ts"]]),
         ("A", [["h", "A.tsx"]])] : FileMap).map (fun e => e.1))
    ∧ ∀ k,
        getKey
          (roundTrip ["h"]
            [("u", [["h", "a", "u.ts"], ["x", "u.ts"]]),
             ("A", [["h", "A.tsx"]])]) k
          = getKey
              [("u", [["h", "a", "u.ts"], ["x", "u.ts"]]),
               ("A", [["h", "A.tsx"]])] k) :=
  ⟨⟨by decide, by decide⟩,
   claim_c1_roundtrip ["h"]
     [("u", [["h", "a", "u.ts"], ["x", "u.ts"]]), ("A", [["h", "A.tsx"]])]
     (by decide) (by decide)⟩
